import Mathlib

/-!
# Verification of the `git-ai` commit pipeline

A shallow embedding of the core pipeline of the `git-ai` repository
(change collection → AI grouping → reconciliation → commit materialization),
translated from the JavaScript sources:

* `node-backend/bin/lib/git-utils.js` — `collectMinimalDiff`,
  `extractJiraFromBranch`, `getValidFiles`;
* `node-backend/bin/lib/commit-template.js` — `buildCommitMessage`;
* `node-backend/bin/cli.js` — `runCommit` (fence stripping, JSON-parse error
  handling, missing-file catch-all injection, per-group verification,
  dry-run / stage / commit loop).

Strings are modelled as `List Char` (JavaScript strings are sequences of
code units; every string operation used by the sources — `trim`,
`startsWith`, `slice`, `split`, `includes`, `replace` with the concrete
regexes, `toUpperCase` — is re-implemented below on `List Char` with the
same semantics).  The external collaborators (the git subprocesses, the
HTTP backends and `JSON.parse`) are parameters: `JSON.parse` is an
abstract function producing either a parse failure, an array of group
records, or some other JSON value, and the git side effects are recorded
as an explicit event trace.
-/

/-- File paths, as they appear in `git status --porcelain` output. -/
abbrev FPath := List Char

/-- The whitespace characters stripped by JavaScript `String.prototype.trim`
(restricted to the ASCII whitespace actually occurring in the pipeline). -/
def isWsChar (c : Char) : Bool :=
  c = ' ' || c = '\n' || c = '\t' || c = '\r'

/-- Left part of JavaScript `trim`. -/
def trimL (s : List Char) : List Char := s.dropWhile isWsChar

/-- Right part of JavaScript `trim`. -/
def trimR (s : List Char) : List Char := (s.reverse.dropWhile isWsChar).reverse

/-- JavaScript `s.trim()`. -/
def jsTrim (s : List Char) : List Char := trimR (trimL s)

/-- JavaScript `s.startsWith(p)`. -/
def jsStartsWith (p s : List Char) : Bool := List.isPrefixOf p s

/-- JavaScript `s.endsWith(p)`. -/
def jsEndsWith (p s : List Char) : Bool := List.isSuffixOf p s

/-- First character exists and is not whitespace. -/
def headNonWs (s : List Char) : Bool :=
  match s with
  | [] => false
  | c :: _ => !isWsChar c

/-- Last character exists and is not whitespace. -/
def lastNonWs (s : List Char) : Bool := headNonWs s.reverse

/-! ## Change Collector (`collectMinimalDiff` in `git-utils.js`)

For each eligible file the collector runs `git diff`, splits the output on
newlines, keeps only added/removed content lines, drops the `+++`/`---`
header lines, and truncates to the first 100 lines:

```js
const changedLines = diff
    .split('\n')
    .filter(l => l.startsWith('+') || l.startsWith('-'))
    .filter(l => !l.startsWith('+++') && !l.startsWith('---'))
    .slice(0, 100);
```
-/

/-- JavaScript `s.split('\n')`. -/
def splitNl (s : List Char) : List (List Char) := s.splitOn '\n'

/-- The `changedLines` computation of `collectMinimalDiff`, applied to the
raw unified-diff text of one file. -/
def changedLinesOf (diff : List Char) : List (List Char) :=
  (((splitNl diff).filter
      (fun l => jsStartsWith "+".data l || jsStartsWith "-".data l)).filter
      (fun l => !jsStartsWith "+++".data l && !jsStartsWith "---".data l)).take 100

/-- **C3.** Every `changedLines` list produced by the Collector from a raw
diff has at most 100 elements, every retained line starts with `'+'` or
`'-'`, and no retained line starts with `'+++'` or `'---'`. -/
theorem collectMinimalDiff_changedLines_bounded (diff : List Char) :
    (changedLinesOf diff).length ≤ 100 ∧
    ∀ l ∈ changedLinesOf diff,
      (jsStartsWith "+".data l = true ∨ jsStartsWith "-".data l = true) ∧
      jsStartsWith "+++".data l = false ∧ jsStartsWith "---".data l = false := by
  constructor
  · exact (List.length_take_le 100 _).trans (by omega)
  · intro l hl
    have hmem := List.mem_of_mem_take hl
    have h2 := (List.mem_filter.mp hmem).2
    have h1 := (List.mem_filter.mp (List.mem_filter.mp hmem).1).2
    simp only [Bool.and_eq_true, Bool.or_eq_true, Bool.not_eq_true'] at h1 h2
    exact ⟨h1, h2.1, h2.2⟩

/-- Witness for `collectMinimalDiff_changedLines_bounded` at a concrete
diff containing header lines, content lines and context lines. -/
theorem collectMinimalDiff_changedLines_bounded_witness :
    (changedLinesOf "--- a/f.js\n+++ b/f.js\n@@ -1 +1 @@\n-old\n+new\n ctx".data).length ≤ 100 ∧
    ∀ l ∈ changedLinesOf "--- a/f.js\n+++ b/f.js\n@@ -1 +1 @@\n-old\n+new\n ctx".data,
      (jsStartsWith "+".data l = true ∨ jsStartsWith "-".data l = true) ∧
      jsStartsWith "+++".data l = false ∧ jsStartsWith "---".data l = false :=
  collectMinimalDiff_changedLines_bounded _

/-! ## Data model

A `CommitGroup` record as parsed from the backend's JSON output
(`{title, summary, files}`); any of the members may be absent in the raw
JSON, in which case JavaScript reads `undefined`.  For the string members
the pipeline only distinguishes falsy (`undefined` or `""`) from truthy
values, so the empty list faithfully stands for an absent member; the
`files` member is distinguished (`Option`) because the executor loop tests
`!group.files` before testing `files.length`. -/
structure GroupJ where
  title : List Char
  summary : List Char
  files : Option (List FPath)
deriving DecidableEq, Repr

/-- The ticket reference extracted from the branch name
(`{prefix, number}` in `extractJiraFromBranch`; the fields are renamed
`pfx`/`num` here). -/
structure JiraRef where
  pfx : List Char
  num : List Char
deriving DecidableEq, Repr

/-- The part of the merged `jira.json` / `jira.local.json` configuration
read by the Builder: `commitPrefix` (renamed `commitPfx`), `jira.baseUrl`
and `project.key`.  `[]` is an absent (or empty, hence falsy) entry. -/
structure Config where
  commitPfx : List Char
  jiraBaseUrl : List Char
  projectKey : List Char
deriving DecidableEq, Repr

/-- JavaScript `a || b` on strings: `b` if `a` is falsy (empty). -/
def orNonEmpty (a b : List Char) : List Char := if a = [] then b else a

/-! ## Commit Message Builder (`buildCommitMessage` in `commit-template.js`)

```js
const title = group.title || group.summary || 'changes';
const summary = group.summary || '';
if (jiraInfo) {
    const prefix = config?.commitPrefix || jiraInfo.prefix;
    const ticketId = `${prefix}-${jiraInfo.number}`;
    const jiraUrl = config?.jira?.baseUrl ? `${config.jira.baseUrl}/browse/${ticketId}` : null;
    const lines = [`${ticketId}: ${title}`, '', summary];
    if (jiraUrl) { lines.push('', jiraUrl); }
    return lines.join('\n').trim();
}
const lines = [title, '', summary];
if (config?.project?.key) { lines.push('', `(Project: ${config.project.key})`); }
return lines.join('\n').trim();
```
-/

/-- The `title` defaulting chain of `buildCommitMessage`. -/
def titleOf (g : GroupJ) : List Char :=
  orNonEmpty g.title (orNonEmpty g.summary "changes".data)

/-- `buildCommitMessage(group, {jiraInfo, config})`. -/
def buildCommitMessage (g : GroupJ) (jiraInfo : Option JiraRef) (config : Config) :
    List Char :=
  let title := titleOf g
  let summary := g.summary
  match jiraInfo with
  | some j =>
    let pfx := orNonEmpty config.commitPfx j.pfx
    let ticketId := pfx ++ "-".data ++ j.num
    let base := ticketId ++ ": ".data ++ title ++ "\n\n".data ++ summary
    let withUrl :=
      if config.jiraBaseUrl = [] then base
      else base ++ "\n\n".data ++ config.jiraBaseUrl ++ "/browse/".data ++ ticketId
    jsTrim withUrl
  | none =>
    let base := title ++ "\n\n".data ++ summary
    let withKey :=
      if config.projectKey = [] then base
      else base ++ "\n\n".data ++ "(Project: ".data ++ config.projectKey ++ ")".data
    jsTrim withKey

/-! ## Branch-name ticket extraction (`extractJiraFromBranch` in `git-utils.js`)

```js
const m = branch.match(/^(?:feature|hotfix|bugfix|task)\/([A-Z]+)-(\d+)/i);
if (!m) return null;
return { prefix: m[1].toUpperCase(), number: m[2] };
```

The `i` flag makes both the branch-type alternation and the `[A-Z]+`
character class case-insensitive; `[A-Z]` under `/i` is exactly the ASCII
letters, and `\d` is `[0-9]`. -/

/-- Case-insensitive `startsWith`, as the `i` regex flag gives for the
literal parts of the pattern. -/
def ciPrefixOf (p s : List Char) : Bool :=
  List.isPrefixOf (p.map Char.toLower) (s.map Char.toLower)

/-- The four branch-type alternatives of the regex. -/
def branchTypes : List (List Char) :=
  ["feature".data, "hotfix".data, "bugfix".data, "task".data]

/-- Matching of `^(?:feature|hotfix|bugfix|task)\/` (case-insensitive);
returns the rest of the branch name after the matched `<type>/`. -/
def stripTypeSlash (branch : List Char) : Option (List Char) :=
  if ciPrefixOf "feature/".data branch then some (branch.drop 8)
  else if ciPrefixOf "hotfix/".data branch then some (branch.drop 7)
  else if ciPrefixOf "bugfix/".data branch then some (branch.drop 7)
  else if ciPrefixOf "task/".data branch then some (branch.drop 5)
  else none

/-- Matching of `([A-Z]+)-(\d+)` (case-insensitive) at the start of the
part of the branch name after `<type>/`: a maximal non-empty run of ASCII
letters, a literal dash, then a maximal non-empty run of digits; the
captured project key is uppercased. -/
def keyNumOf (rest : List Char) : Option JiraRef :=
  if rest.takeWhile Char.isAlpha = [] then none
  else
    match rest.dropWhile Char.isAlpha with
    | '-' :: rest3 =>
      if rest3.takeWhile Char.isDigit = [] then none
      else some ⟨(rest.takeWhile Char.isAlpha).map Char.toUpper, rest3.takeWhile Char.isDigit⟩
    | _ => none

/-- `extractJiraFromBranch(branch)`. -/
def extractJiraFromBranch (branch : List Char) : Option JiraRef :=
  match stripTypeSlash branch with
  | none => none
  | some rest => keyNumOf rest

/-! ## Group Reconciler (inside `runCommit` in `cli.js`)

```js
let jsonStr = groupResponse.trim();
if (jsonStr.startsWith('```')) {
    jsonStr = jsonStr.replace(/^```(?:json)?\n?/, '').replace(/\n?```$/, '');
}
groups = JSON.parse(jsonStr);          // throws -> 'AI returned invalid JSON: ' + raw.slice(0,200)
if (!Array.isArray(groups) || groups.length === 0)
    throw new Error('No groups returned from AI');
...
const allGroupedFiles = groups.flatMap(g => g.files || []);
const missingFiles = validFiles.filter(f => !allGroupedFiles.includes(f));
if (missingFiles.length > 0) groups.push({title: 'Add remaining project files', ...});
```
-/

/-- `s.drop p.length` when `p` is a literal prefix of `s`, else `s` —
one optional-literal step of the fence-stripping regexes. -/
def dropLit (p s : List Char) : List Char :=
  if List.isPrefixOf p s then s.drop p.length else s

/-- `jsonStr.replace(/^```(?:json)?\n?/, '')`, applied to a string known to
start with three backticks: both optional parts are matched greedily. -/
def stripLeadFence (s : List Char) : List Char :=
  dropLit "\n".data (dropLit "json".data (s.drop 3))

/-- `jsonStr.replace(/\n?```$/, '')`: the regex prefers the longer match
ending at the end of the string and is the identity when it does not
match. -/
def stripTailFence (s : List Char) : List Char :=
  if jsEndsWith "\n```".data s then s.take (s.length - 4)
  else if jsEndsWith "```".data s then s.take (s.length - 3)
  else s

/-- The whole fence-stripping step of `runCommit`: trim, then, only when
the text starts with three backticks, strip the leading and trailing
fence delimiters. -/
def stripFence (raw : List Char) : List Char :=
  if jsStartsWith "```".data (jsTrim raw) then stripTailFence (stripLeadFence (jsTrim raw))
  else jsTrim raw

/-- Outcome of the external `JSON.parse` on the (fence-stripped) backend
text, as far as `runCommit` inspects it: an array of group records, or a
successfully parsed value that is not an array.  A parse failure (thrown
exception) is the `none` case of the `Option` in which this type is
used. -/
inductive AiValue where
  | arr (gs : List GroupJ)
  | nonArr
deriving DecidableEq, Repr

/-- The parse-and-validate phase of `runCommit`, with the external
`JSON.parse` supplied as `parse`.  Produces either the thrown error
message or the parsed group list. -/
def parsePhase (parse : List Char → Option AiValue) (raw : List Char) :
    Except (List Char) (List GroupJ) :=
  match parse (stripFence raw) with
  | none => .error ("AI returned invalid JSON: ".data ++ raw.take 200)
  | some .nonArr => .error "No groups returned from AI".data
  | some (.arr gs) =>
    if gs.length = 0 then .error "No groups returned from AI".data else .ok gs

/-- `groups.flatMap(g => g.files || [])`. -/
def allGroupedFiles : List GroupJ → List FPath
  | [] => []
  | g :: rest => g.files.getD [] ++ allGroupedFiles rest

/-- `validFiles.filter(f => !allGroupedFiles.includes(f))`. -/
def missingFilesOf (validFiles : List FPath) (gs : List GroupJ) : List FPath :=
  validFiles.filter (fun f => !(allGroupedFiles gs).contains f)

/-- The synthetic catch-all group pushed for the missed files. -/
def catchAllGroup (fs : List FPath) : GroupJ :=
  { title := "Add remaining project files".data
    summary := "Additional configuration and boilerplate files".data
    files := some fs }

/-- The catch-all injection step of `runCommit` (step 6.1 in the source):
append one synthetic group when some valid file was claimed by no group. -/
def reconcile (validFiles : List FPath) (gs : List GroupJ) : List GroupJ :=
  if missingFilesOf validFiles gs = [] then gs
  else gs ++ [catchAllGroup (missingFilesOf validFiles gs)]

/-- `group.files.filter(f => validFiles.includes(f))` — the per-group path
verification of the executor loop. -/
def verifiedOf (validFiles : List FPath) (g : GroupJ) : List FPath :=
  (g.files.getD []).filter (fun f => validFiles.contains f)

/-! ## Commit Executor (the per-group loop of `runCommit`)

```js
for (const group of groups) {
    if (!group.files || group.files.length === 0) continue;
    const verifiedFiles = group.files.filter(f => validFiles.includes(f));
    if (verifiedFiles.length === 0) {
        console.log(`⚠ Skipping group "${group.title}" - no valid files`);
        continue;
    }
    const commitMessage = buildCommitMessage({ ...group, files: verifiedFiles }, { jiraInfo, config });
    if (dryRun) { ...print preview...; continue; }
    await execa('git', ['add', '--'].concat(verifiedFiles), ...);
    const { stdout: staged } = await execa('git', ['diff', '--cached', '--name-only'], ...);
    if (!staged.trim()) {
        console.log(`⚠ Skipping group "${group.title}" - no staged changes`);
        continue;
    }
    const safeMessage = commitMessage.replace(/\n+/g, ' ').trim();
    await execa('git', ['commit', '-m', safeMessage], ...);
}
```

The observable behaviour of one run is recorded as a trace of events: the
two mutating git subprocess calls (`add`, `commit`), the dry-run preview
print, and the two skip warnings.  Whether the index holds staged changes
after a `git add` depends on repository state outside the model, so it is
an oracle `staged : Nat → Bool` indexed by the group's position. -/

/-- One observable step of the executor. -/
inductive Event where
  | warnNoValid (title : List Char)
  | preview (files : List FPath) (message : List Char)
  | add (files : List FPath)
  | warnNoStaged (title : List Char)
  | commit (message : List Char)
deriving DecidableEq, Repr

/-- `commitMessage.replace(/\n+/g, ' ')`: every maximal run of newlines
becomes one space.  The `Bool` argument records whether the previous
character was a newline (i.e. whether we are inside a run). -/
def squashNlAux : Bool → List Char → List Char
  | _, [] => []
  | inRun, c :: rest =>
    if c = '\n' then
      if inRun then squashNlAux true rest else ' ' :: squashNlAux true rest
    else c :: squashNlAux false rest

/-- `commitMessage.replace(/\n+/g, ' ')`. -/
def squashNewlines (s : List Char) : List Char := squashNlAux false s

/-- The `safeMessage` flattening applied immediately before `git commit`. -/
def safeMessageOf (msg : List Char) : List Char := jsTrim (squashNewlines msg)

/-- The body of the executor loop for one group.  `stagedNonEmpty` is the
outcome of the `git diff --cached --name-only` check for this group. -/
def processGroup (validFiles : List FPath) (dryRun : Bool) (jiraInfo : Option JiraRef)
    (config : Config) (stagedNonEmpty : Bool) (g : GroupJ) : List Event :=
  if g.files.getD [] = [] then []
  else if verifiedOf validFiles g = [] then [Event.warnNoValid g.title]
  else if dryRun then
    [Event.preview (verifiedOf validFiles g)
      (buildCommitMessage { g with files := some (verifiedOf validFiles g) } jiraInfo config)]
  else
    Event.add (verifiedOf validFiles g) ::
      (if stagedNonEmpty then
        [Event.commit (safeMessageOf
          (buildCommitMessage { g with files := some (verifiedOf validFiles g) } jiraInfo config))]
       else [Event.warnNoStaged g.title])

/-- The executor loop over the reconciled groups, with `i` the position of
the first group (used to consult the staging oracle). -/
def processGroups (validFiles : List FPath) (dryRun : Bool) (jiraInfo : Option JiraRef)
    (config : Config) (staged : Nat → Bool) : List GroupJ → Nat → List Event
  | [], _ => []
  | g :: rest, i =>
    processGroup validFiles dryRun jiraInfo config (staged i) g ++
      processGroups validFiles dryRun jiraInfo config staged rest (i + 1)

/-- `runCommit`, from the point where the backend's raw text is in hand:
the early return on an empty change set, the parse-and-validate phase
(whose thrown errors abort the run before any git mutation), the
catch-all reconciliation, and the executor loop.  The result is either
the thrown error message or the trace of executor events. -/
def runCommit (parse : List Char → Option AiValue) (validFiles : List FPath)
    (raw : List Char) (dryRun : Bool) (jiraInfo : Option JiraRef) (config : Config)
    (staged : Nat → Bool) : Except (List Char) (List Event) :=
  if validFiles = [] then .ok []
  else
    match parsePhase parse raw with
    | .error e => .error e
    | .ok gs =>
      .ok (processGroups validFiles dryRun jiraInfo config staged (reconcile validFiles gs) 0)

/-! ## Basic lemmas about the string model -/

theorem mem_allGroupedFiles {p : FPath} :
    ∀ {gs : List GroupJ}, p ∈ allGroupedFiles gs ↔ ∃ g ∈ gs, p ∈ g.files.getD []
  | [] => by simp [allGroupedFiles]
  | g :: rest => by
    simp [allGroupedFiles, List.mem_append, @mem_allGroupedFiles p rest]

theorem contains_iff_mem {l : List FPath} {a : FPath} : l.contains a = true ↔ a ∈ l := by
  simp [List.contains_iff_exists_mem_beq]

theorem trimL_cons_of_not_ws {c : Char} {t : List Char} (h : isWsChar c = false) :
    trimL (c :: t) = c :: t := by
  simp [trimL, List.dropWhile_cons, h]

theorem trimL_eq_self {s : List Char} (h : headNonWs s = true) : trimL s = s := by
  cases s with
  | nil => simp [headNonWs] at h
  | cons c t =>
    simp only [headNonWs, Bool.not_eq_true'] at h
    exact trimL_cons_of_not_ws h

theorem trimR_eq_self {s : List Char} (h : lastNonWs s = true) : trimR s = s := by
  unfold lastNonWs at h
  have hdw := trimL_eq_self h
  unfold trimL at hdw
  unfold trimR
  rw [hdw, List.reverse_reverse]

theorem jsTrim_eq_self {s : List Char} (h1 : headNonWs s = true) (h2 : lastNonWs s = true) :
    jsTrim s = s := by
  unfold jsTrim
  rw [trimL_eq_self h1, trimR_eq_self h2]

theorem headNonWs_append {x y : List Char} (h : x ≠ []) :
    headNonWs (x ++ y) = headNonWs x := by
  cases x with
  | nil => exact absurd rfl h
  | cons c t => rfl

theorem lastNonWs_append {x y : List Char} (h : y ≠ []) :
    lastNonWs (x ++ y) = lastNonWs y := by
  unfold lastNonWs
  rw [List.reverse_append]
  exact headNonWs_append (by simpa using h)

theorem mem_trimL {c : Char} {s : List Char} (h : c ∈ trimL s) : c ∈ s :=
  (List.dropWhile_sublist _).mem h

theorem mem_jsTrim {c : Char} {s : List Char} (h : c ∈ jsTrim s) : c ∈ s := by
  unfold jsTrim trimR at h
  have h1 := List.mem_reverse.mpr h
  rw [List.reverse_reverse] at h1
  have h2 := (List.dropWhile_sublist _).mem h1
  exact mem_trimL (List.mem_reverse.mp h2)

theorem not_nl_mem_squashNlAux (b : Bool) (s : List Char) : '\n' ∉ squashNlAux b s := by
  induction s generalizing b with
  | nil => simp [squashNlAux]
  | cons c rest ih =>
    by_cases hc : c = '\n'
    · subst hc
      cases b with
      | true => simpa [squashNlAux] using ih true
      | false =>
        have heq : squashNlAux false ('\n' :: rest) = ' ' :: squashNlAux true rest := by
          simp [squashNlAux]
        rw [heq]
        intro hmem
        rcases List.mem_cons.mp hmem with h | h
        · exact absurd h.symm (by decide)
        · exact ih true h
    · simp only [squashNlAux, if_neg hc]
      intro hmem
      rcases List.mem_cons.mp hmem with h | h
      · exact hc h.symm
      · exact ih false h

theorem not_nl_mem_safeMessageOf (msg : List Char) : '\n' ∉ safeMessageOf msg := by
  intro h
  exact not_nl_mem_squashNlAux false msg (mem_jsTrim h)

/-! ## C2: catch-all injection -/

/-- The spec-side description of the missed files: valid paths not claimed
by any group after the per-group path filtering. -/
def unclaimedAfterFilter (validFiles : List FPath) (gs : List GroupJ) : List FPath :=
  validFiles.filter (fun p => gs.all (fun g => !(verifiedOf validFiles g).contains p))

/-- The code computes the missed files from the raw (unfiltered) group
file lists, but for paths that are themselves valid this coincides with
the filtered version. -/
theorem missingFilesOf_eq_unclaimed (vf : List FPath) (gs : List GroupJ) :
    missingFilesOf vf gs = unclaimedAfterFilter vf gs := by
  unfold missingFilesOf unclaimedAfterFilter
  apply List.filter_congr
  intro p hp
  rw [Bool.eq_iff_iff]
  simp only [Bool.not_eq_true', List.all_eq_true, Bool.not_eq_true]
  constructor
  · intro h g hg
    rcases hcg : (verifiedOf vf g).contains p with _ | _
    · rfl
    · exfalso
      have hmem := contains_iff_mem.mp hcg
      have hfg := (List.mem_filter.mp hmem).1
      have : (allGroupedFiles gs).contains p = true :=
        contains_iff_mem.mpr (mem_allGroupedFiles.mpr ⟨g, hg, hfg⟩)
      rw [this] at h
      exact absurd h (by decide)
  · intro h
    rcases hcg : (allGroupedFiles gs).contains p with _ | _
    · rfl
    · exfalso
      rcases mem_allGroupedFiles.mp (contains_iff_mem.mp hcg) with ⟨g, hg, hfg⟩
      have : (verifiedOf vf g).contains p = true :=
        contains_iff_mem.mpr (List.mem_filter.mpr ⟨hfg, contains_iff_mem.mpr hp⟩)
      rw [h g hg] at this
      exact absurd this (by decide)

/-- **C2.** When the set of valid paths claimed by no group after filtering
is non-empty, reconciliation appends exactly one synthetic catch-all group
whose `files` is exactly that set difference; in particular, for a
ChangeSet with `a.js` and `b.js` and one backend group claiming only
`a.js`, a second group containing exactly `b.js` is appended. -/
theorem reconcile_appends_exact_catchall (vf : List FPath) (gs : List GroupJ)
    (h : unclaimedAfterFilter vf gs ≠ []) :
    reconcile vf gs = gs ++ [catchAllGroup (unclaimedAfterFilter vf gs)] ∧
    reconcile ["a.js".data, "b.js".data] [⟨"A".data, [], some ["a.js".data]⟩] =
      [⟨"A".data, [], some ["a.js".data]⟩, catchAllGroup ["b.js".data]] := by
  constructor
  · unfold reconcile
    rw [missingFilesOf_eq_unclaimed]
    simp [h]
  · decide

/-- Witness for `reconcile_appends_exact_catchall` at the scenario input. -/
theorem reconcile_appends_exact_catchall_witness :
    reconcile ["a.js".data, "b.js".data] [⟨"A".data, [], some ["a.js".data]⟩] =
      [⟨"A".data, [], some ["a.js".data]⟩] ++
        [catchAllGroup (unclaimedAfterFilter ["a.js".data, "b.js".data]
          [⟨"A".data, [], some ["a.js".data]⟩])] :=
  (reconcile_appends_exact_catchall ["a.js".data, "b.js".data]
    [⟨"A".data, [], some ["a.js".data]⟩] (by decide)).1

/-! ## C1: the partition property after reconciliation -/

/-- A group is emitted by the executor loop (rather than skipped) iff its
raw file list and its verified file list are both non-empty. -/
def isEmittedB (validFiles : List FPath) (g : GroupJ) : Bool :=
  !(g.files.getD []).isEmpty && !(verifiedOf validFiles g).isEmpty

/-- The verified file lists of the emitted groups, in order. -/
def emittedFiles (validFiles : List FPath) (gs : List GroupJ) : List (List FPath) :=
  ((reconcile validFiles gs).filter (isEmittedB validFiles)).map (verifiedOf validFiles)

/-- Boolean pairwise disjointness of the emitted groups' file lists. -/
def pairwiseDisjointB : List (List FPath) → Bool
  | [] => true
  | fs :: rest => rest.all (fun fs2 => fs.all (fun p => !fs2.contains p)) && pairwiseDisjointB rest

/-- **C1 counterexample.** When the backend returns two groups that both
claim the same valid path, reconciliation emits both unchanged: the two
emitted groups share the file `a.js`, so the partition half of the claim
fails on the code. -/
theorem reconcile_partition_counterexample :
    emittedFiles ["a.js".data]
        [⟨"A".data, [], some ["a.js".data]⟩, ⟨"B".data, [], some ["a.js".data]⟩] =
      [["a.js".data], ["a.js".data]] ∧
    pairwiseDisjointB (emittedFiles ["a.js".data]
        [⟨"A".data, [], some ["a.js".data]⟩, ⟨"B".data, [], some ["a.js".data]⟩]) = false := by
  constructor
  · rfl
  · rfl

/-- **C1 (amended).** After reconciliation the union of the emitted groups'
verified file lists equals the ChangeSet valid-path set: every valid path
is claimed by at least one emitted group (a fully discarded group never
contains a valid path, so nothing is ever subtracted), and emitted groups
claim only valid paths.  The disjointness half of the original claim does
not hold: when the backend's groups overlap, the shared path is claimed by
each of them. -/
theorem reconcile_union_eq_validFiles (vf : List FPath) (gs : List GroupJ) :
    (∀ p ∈ vf, ∃ fs ∈ emittedFiles vf gs, p ∈ fs) ∧
    (∀ fs ∈ emittedFiles vf gs, ∀ p ∈ fs, p ∈ vf) := by
  constructor
  · intro p hp
    by_cases hclaim : ∃ g ∈ gs, p ∈ g.files.getD []
    · rcases hclaim with ⟨g, hg, hfg⟩
      refine ⟨verifiedOf vf g, ?_, ?_⟩
      · apply List.mem_map_of_mem
        apply List.mem_filter.mpr
        constructor
        · unfold reconcile
          split
          · exact hg
          · exact List.mem_append_left _ hg
        · unfold isEmittedB
          have h1 : (g.files.getD []).isEmpty = false :=
            List.isEmpty_eq_false.mpr (List.ne_nil_of_mem hfg)
          have h2 : (verifiedOf vf g).isEmpty = false := by
            apply List.isEmpty_eq_false.mpr
            apply List.ne_nil_of_mem (a := p)
            exact List.mem_filter.mpr ⟨hfg, contains_iff_mem.mpr hp⟩
          simp [h1, h2]
      · exact List.mem_filter.mpr ⟨hfg, contains_iff_mem.mpr hp⟩
    · have hmiss : p ∈ missingFilesOf vf gs := by
        apply List.mem_filter.mpr
        refine ⟨hp, ?_⟩
        rcases hc : (allGroupedFiles gs).contains p with _ | _
        · rfl
        · exact absurd (mem_allGroupedFiles.mp (contains_iff_mem.mp hc)) hclaim
      have hne : missingFilesOf vf gs ≠ [] := List.ne_nil_of_mem hmiss
      refine ⟨verifiedOf vf (catchAllGroup (missingFilesOf vf gs)), ?_, ?_⟩
      · apply List.mem_map_of_mem
        apply List.mem_filter.mpr
        constructor
        · unfold reconcile
          split
          · exact absurd (by assumption) hne
          · exact List.mem_append_right _ (by simp)
        · unfold isEmittedB
          have h1 : ((catchAllGroup (missingFilesOf vf gs)).files.getD []).isEmpty = false := by
            simp only [catchAllGroup, Option.getD_some]
            exact List.isEmpty_eq_false.mpr hne
          have h2 : (verifiedOf vf (catchAllGroup (missingFilesOf vf gs))).isEmpty = false := by
            apply List.isEmpty_eq_false.mpr
            apply List.ne_nil_of_mem (a := p)
            apply List.mem_filter.mpr
            exact ⟨by simpa [catchAllGroup] using hmiss, contains_iff_mem.mpr hp⟩
          simp [h1, h2]
      · apply List.mem_filter.mpr
        exact ⟨by simpa [catchAllGroup] using hmiss, contains_iff_mem.mpr hp⟩
  · intro fs hfs p hpfs
    rcases List.mem_map.mp hfs with ⟨g, _, rfl⟩
    exact contains_iff_mem.mp (List.mem_filter.mp hpfs).2

/-- Witness for `reconcile_union_eq_validFiles`: a valid path missed by the
backend ends up in exactly the catch-all group. -/
theorem reconcile_union_eq_validFiles_witness :
    (∀ p ∈ ["a.js".data, "b.js".data],
       ∃ fs ∈ emittedFiles ["a.js".data, "b.js".data] [⟨"A".data, [], some ["a.js".data]⟩],
         p ∈ fs) ∧
    (∀ fs ∈ emittedFiles ["a.js".data, "b.js".data] [⟨"A".data, [], some ["a.js".data]⟩],
       ∀ p ∈ fs, p ∈ ["a.js".data, "b.js".data]) :=
  reconcile_union_eq_validFiles ["a.js".data, "b.js".data] [⟨"A".data, [], some ["a.js".data]⟩]

/-! ## C4: fenced-code-block stripping -/

/-- A JSON body wrapped in a ```` ```json ```` fenced code block. -/
def fenceWrapJson (body : List Char) : List Char :=
  "```json\n".data ++ body ++ "\n```".data

/-- A JSON body wrapped in a bare ```` ``` ```` fenced code block. -/
def fenceWrapPlain (body : List Char) : List Char :=
  "```\n".data ++ body ++ "\n```".data

theorem stripTailFence_append (s : List Char) :
    stripTailFence (s ++ "\n```".data) = s := by
  have hsfx : jsEndsWith "\n```".data (s ++ "\n```".data) = true := by
    show List.isPrefixOf ("\n```".data).reverse (s ++ "\n```".data).reverse = true
    rw [List.reverse_append]
    show List.isPrefixOf ['`', '`', '`', '\n'] ('`' :: '`' :: '`' :: '\n' :: s.reverse) = true
    simp [List.isPrefixOf]
  unfold stripTailFence
  rw [if_pos hsfx]
  have hlen : (s ++ "\n```".data).length - 4 = s.length := by
    simp [List.length_append]
  rw [hlen]
  exact List.take_left' rfl

theorem jsTrim_fenceWrap {lead : List Char} (body : List Char)
    (hhd : headNonWs lead = true) :
    jsTrim (lead ++ body ++ "\n```".data) = lead ++ body ++ "\n```".data := by
  have hlead_ne : lead ≠ [] := by
    intro h
    rw [h] at hhd
    exact absurd hhd (by decide)
  apply jsTrim_eq_self
  · rw [headNonWs_append (x := lead ++ body)
      (fun h => hlead_ne (List.append_eq_nil.mp h).1)]
    rw [headNonWs_append (x := lead) hlead_ne]
    exact hhd
  · rw [lastNonWs_append (y := "\n```".data) (by decide)]
    decide

/-- **C4.** For a backend text that is a body wrapped in a fenced code
block (with a ```` ```json ```` or plain ```` ``` ```` delimiter line),
`runCommit`'s fence stripping recovers exactly the wrapped body, so the
subsequent parse sees the unwrapped text and yields the same groups. -/
theorem stripFence_unwraps (body : List Char) :
    stripFence (fenceWrapJson body) = body ∧
    stripFence (fenceWrapPlain body) = body ∧
    ∀ parseArr : List Char → Option (List GroupJ),
      parseArr (stripFence (fenceWrapJson body)) = parseArr body ∧
      parseArr (stripFence (fenceWrapPlain body)) = parseArr body := by
  have hjson : stripFence (fenceWrapJson body) = body := by
    unfold stripFence fenceWrapJson
    rw [jsTrim_fenceWrap body (by decide)]
    have hpre : jsStartsWith "```".data ("```json\n".data ++ body ++ "\n```".data) = true := by
      show List.isPrefixOf ['`', '`', '`']
        ('`' :: '`' :: '`' :: 'j' :: 's' :: 'o' :: 'n' :: '\n' :: (body ++ "\n```".data)) = true
      simp [List.isPrefixOf]
    rw [if_pos hpre]
    have hlead : stripLeadFence ("```json\n".data ++ body ++ "\n```".data) =
        body ++ "\n```".data := by
      show stripLeadFence
        ('`' :: '`' :: '`' :: 'j' :: 's' :: 'o' :: 'n' :: '\n' :: (body ++ "\n```".data)) = _
      unfold stripLeadFence
      show dropLit "\n".data (dropLit "json".data
        ('j' :: 's' :: 'o' :: 'n' :: '\n' :: (body ++ "\n```".data))) = _
      have h1 : dropLit "json".data ('j' :: 's' :: 'o' :: 'n' :: '\n' :: (body ++ "\n```".data)) =
          '\n' :: (body ++ "\n```".data) := by
        unfold dropLit
        rw [if_pos (by simp [List.isPrefixOf])]
        rfl
      rw [h1]
      unfold dropLit
      rw [if_pos (by simp [List.isPrefixOf])]
      rfl
    rw [hlead]
    exact stripTailFence_append body
  have hplain : stripFence (fenceWrapPlain body) = body := by
    unfold stripFence fenceWrapPlain
    rw [jsTrim_fenceWrap body (by decide)]
    have hpre : jsStartsWith "```".data ("```\n".data ++ body ++ "\n```".data) = true := by
      show List.isPrefixOf ['`', '`', '`']
        ('`' :: '`' :: '`' :: '\n' :: (body ++ "\n```".data)) = true
      simp [List.isPrefixOf]
    rw [if_pos hpre]
    have hlead : stripLeadFence ("```\n".data ++ body ++ "\n```".data) =
        body ++ "\n```".data := by
      show stripLeadFence ('`' :: '`' :: '`' :: '\n' :: (body ++ "\n```".data)) = _
      unfold stripLeadFence
      show dropLit "\n".data (dropLit "json".data ('\n' :: (body ++ "\n```".data))) = _
      have h1 : dropLit "json".data ('\n' :: (body ++ "\n```".data)) =
          '\n' :: (body ++ "\n```".data) := by
        unfold dropLit
        rw [if_neg (by simp [List.isPrefixOf])]
      rw [h1]
      unfold dropLit
      rw [if_pos (by simp [List.isPrefixOf])]
      rfl
    rw [hlead]
    exact stripTailFence_append body
  exact ⟨hjson, hplain, fun parseArr => ⟨by rw [hjson], by rw [hplain]⟩⟩

/-! ## C5: malformed-output handling -/

/-- A `JSON.parse` behaviour under which the raw text `[]` parses to an
empty array (exactly what the real `JSON.parse` does on `"[]"`). -/
def parseOnlyEmptyArr : List Char → Option AiValue := fun s =>
  if s = "[]".data then some (AiValue.arr []) else none

/-- **C5 counterexample.** The raw backend text `[]` parses successfully to
an empty array, and `runCommit` then fails with the fixed message
`No groups returned from AI`, which does not contain the first 200
characters of the raw text (`[]`): the excerpt is only attached to the
JSON-parse-failure error, not to the empty/non-array error. -/
theorem parsePhase_empty_no_excerpt_counterexample :
    parsePhase parseOnlyEmptyArr "[]".data = .error "No groups returned from AI".data ∧
    ¬ (("[]".data : List Char).take 200 <:+: "No groups returned from AI".data) := by
  constructor
  · rfl
  · decide

/-- **C5 (amended).** A raw text that fails to parse as JSON makes the run
fail, before any staging or commit, with the malformed-output error
carrying the first 200 characters of the raw text; a raw text that parses
to an empty array or to a non-array value makes the run fail, again before
any staging or commit, but with the fixed message
`No groups returned from AI`, which carries no excerpt of the raw text. -/
theorem parsePhase_error_behaviour (parse : List Char → Option AiValue)
    (vf : List FPath) (raw : List Char) (dryRun : Bool) (ji : Option JiraRef)
    (cfg : Config) (staged : Nat → Bool) (hvf : vf ≠ []) :
    (parse (stripFence raw) = none →
       runCommit parse vf raw dryRun ji cfg staged =
         .error ("AI returned invalid JSON: ".data ++ raw.take 200)) ∧
    (parse (stripFence raw) = some (AiValue.arr []) ∨
        parse (stripFence raw) = some AiValue.nonArr →
       runCommit parse vf raw dryRun ji cfg staged =
         .error "No groups returned from AI".data) := by
  constructor
  · intro hp
    unfold runCommit
    rw [if_neg hvf]
    unfold parsePhase
    rw [hp]
  · intro hp
    unfold runCommit
    rw [if_neg hvf]
    unfold parsePhase
    rcases hp with hp | hp
    · rw [hp]
      rfl
    · rw [hp]

/-- Witness for `parsePhase_error_behaviour`: an unparsable raw text
aborts the run with the excerpt-carrying error. -/
theorem parsePhase_error_behaviour_witness :
    runCommit (fun _ => none) ["a.js".data] "not json".data false none ⟨[], [], []⟩
        (fun _ => true) =
      .error ("AI returned invalid JSON: ".data ++ ("not json".data : List Char).take 200) :=
  (parsePhase_error_behaviour (fun _ => none) ["a.js".data] "not json".data false none
    ⟨[], [], []⟩ (fun _ => true) (by decide)).1 rfl

/-! ## Executor trace lemmas -/

/-- The Builder's message for a group after its file list has been
replaced by the verified files (`{ ...group, files: verifiedFiles }`). -/
def builtMessageOf (vf : List FPath) (ji : Option JiraRef) (cfg : Config) (g : GroupJ) :
    List Char :=
  buildCommitMessage { g with files := some (verifiedOf vf g) } ji cfg

/-- Complete characterization of the events one group can contribute. -/
theorem processGroup_events {vf : List FPath} {dryRun : Bool} {ji : Option JiraRef}
    {cfg : Config} {b : Bool} {g : GroupJ} {ev : Event}
    (h : ev ∈ processGroup vf dryRun ji cfg b g) :
    ev = Event.warnNoValid g.title ∨
    (dryRun = true ∧ ev = Event.preview (verifiedOf vf g) (builtMessageOf vf ji cfg g)) ∨
    (dryRun = false ∧
      (ev = Event.add (verifiedOf vf g) ∨ ev = Event.warnNoStaged g.title ∨
       ev = Event.commit (safeMessageOf (builtMessageOf vf ji cfg g)))) := by
  unfold processGroup at h
  unfold builtMessageOf
  split at h
  · exact absurd h (List.not_mem_nil ev)
  · split at h
    · exact Or.inl (List.mem_singleton.mp h)
    · split at h
      · refine Or.inr (Or.inl ⟨by assumption, List.mem_singleton.mp h⟩)
      · rename_i hdry
        refine Or.inr (Or.inr ⟨by simpa using hdry, ?_⟩)
        rcases List.mem_cons.mp h with h | h
        · exact Or.inl h
        · split at h
          · exact Or.inr (Or.inr (List.mem_singleton.mp h))
          · exact Or.inr (Or.inl (List.mem_singleton.mp h))

/-- Every event of the loop trace comes from one of the groups. -/
theorem mem_processGroups {vf : List FPath} {dryRun : Bool} {ji : Option JiraRef}
    {cfg : Config} {staged : Nat → Bool} :
    ∀ {gs : List GroupJ} {i : Nat} {ev : Event},
      ev ∈ processGroups vf dryRun ji cfg staged gs i →
      ∃ g ∈ gs, ∃ b, ev ∈ processGroup vf dryRun ji cfg b g
  | [], _, _, h => absurd h (List.not_mem_nil _)
  | g :: rest, i, ev, h => by
    rcases List.mem_append.mp h with h | h
    · exact ⟨g, List.mem_cons_self g rest, staged i, h⟩
    · rcases mem_processGroups h with ⟨g', hg', b, hb⟩
      exact ⟨g', List.mem_cons_of_mem g hg', b, hb⟩

/-- Every event of a successful run comes from some reconciled group. -/
theorem runCommit_ok_events {parse : List Char → Option AiValue} {vf : List FPath}
    {raw : List Char} {dryRun : Bool} {ji : Option JiraRef} {cfg : Config}
    {staged : Nat → Bool} {evs : List Event} {ev : Event}
    (h : runCommit parse vf raw dryRun ji cfg staged = .ok evs) (hev : ev ∈ evs) :
    ∃ gs, parsePhase parse raw = .ok gs ∧
      ∃ g ∈ reconcile vf gs, ∃ b, ev ∈ processGroup vf dryRun ji cfg b g := by
  unfold runCommit at h
  split at h
  · cases h
    exact absurd hev (List.not_mem_nil ev)
  · split at h
    · cases h
    · rename_i gs hgs
      cases h
      exact ⟨gs, hgs, mem_processGroups hev⟩

/-- The file list of every `add` event of a group is its verified list. -/
theorem processGroup_add_files {vf : List FPath} {dryRun : Bool} {ji : Option JiraRef}
    {cfg : Config} {b : Bool} {g : GroupJ} {fs : List FPath}
    (h : Event.add fs ∈ processGroup vf dryRun ji cfg b g) : fs = verifiedOf vf g := by
  rcases processGroup_events h with h | ⟨_, h⟩ | ⟨_, h | h | h⟩ <;> cases h <;> rfl

/-- The file list and message of every `preview` event of a group. -/
theorem processGroup_preview_files {vf : List FPath} {dryRun : Bool} {ji : Option JiraRef}
    {cfg : Config} {b : Bool} {g : GroupJ} {fs : List FPath} {m : List Char}
    (h : Event.preview fs m ∈ processGroup vf dryRun ji cfg b g) :
    fs = verifiedOf vf g ∧ m = builtMessageOf vf ji cfg g := by
  rcases processGroup_events h with h | ⟨_, h⟩ | ⟨_, h | h | h⟩ <;> cases h <;> exact ⟨rfl, rfl⟩

/-- The message of every `commit` event of a group, and the fact that
commits only happen outside dry-run mode. -/
theorem processGroup_commit_message {vf : List FPath} {dryRun : Bool} {ji : Option JiraRef}
    {cfg : Config} {b : Bool} {g : GroupJ} {m : List Char}
    (h : Event.commit m ∈ processGroup vf dryRun ji cfg b g) :
    dryRun = false ∧ m = safeMessageOf (builtMessageOf vf ji cfg g) := by
  rcases processGroup_events h with h | ⟨hd, h⟩ | ⟨hd, h | h | h⟩ <;> cases h <;> exact ⟨hd, rfl⟩

/-! ## C6: invalid paths are dropped, empty groups are skipped with a warning -/

/-- **C6.** Backend-invented paths never reach a commit: (1) every file
list attached to a `git add` call or a dry-run preview during a run
contains only ChangeSet-valid paths, so a nonexistent path like `ghost.js`
never appears in any commit's file list; (2) a group with a non-empty raw
file list but no valid files contributes exactly one skip warning naming
the group's title, and nothing else; (3) a run only fails with the parse
phase's errors — invalid paths never make it fail; (4) concretely,
filtering a group claiming `ghost.js` and `a.js` against the valid set
`{a.js}` retains exactly `a.js`. -/
theorem invalid_paths_dropped (vf : List FPath) (dryRun : Bool) (ji : Option JiraRef)
    (cfg : Config) (staged : Nat → Bool) :
    (∀ (parse : List Char → Option AiValue) (raw : List Char) (evs : List Event)
        (fs : List FPath),
       runCommit parse vf raw dryRun ji cfg staged = .ok evs →
       (Event.add fs ∈ evs ∨ ∃ m, Event.preview fs m ∈ evs) →
       ∀ f ∈ fs, f ∈ vf) ∧
    (∀ (g : GroupJ) (b : Bool), g.files.getD [] ≠ [] → verifiedOf vf g = [] →
       processGroup vf dryRun ji cfg b g = [Event.warnNoValid g.title]) ∧
    (∀ (parse : List Char → Option AiValue) (raw e : List Char),
       runCommit parse vf raw dryRun ji cfg staged = .error e →
       parsePhase parse raw = .error e) ∧
    verifiedOf ["a.js".data] ⟨"A".data, [], some ["ghost.js".data, "a.js".data]⟩ =
      ["a.js".data] := by
  refine ⟨?_, ?_, ?_, by decide⟩
  · intro parse raw evs fs hok hmem f hf
    have key : ∃ g : GroupJ, fs = verifiedOf vf g := by
      rcases hmem with hmem | ⟨m, hmem⟩
      · rcases runCommit_ok_events hok hmem with ⟨gs, _, g, _, b, hpg⟩
        exact ⟨g, processGroup_add_files hpg⟩
      · rcases runCommit_ok_events hok hmem with ⟨gs, _, g, _, b, hpg⟩
        exact ⟨g, (processGroup_preview_files hpg).1⟩
    rcases key with ⟨g, rfl⟩
    exact contains_iff_mem.mp (List.mem_filter.mp hf).2
  · intro g b h1 h2
    unfold processGroup
    rw [if_neg h1, if_pos h2]
  · intro parse raw e h
    unfold runCommit at h
    split at h
    · cases h
    · split at h
      · rename_i e' he'
        cases h
        exact he'
      · cases h

/-- Witness for `invalid_paths_dropped` at concrete inputs: a run over the
single valid path `a.js` whose backend output claims `ghost.js` and
`a.js`. -/
theorem invalid_paths_dropped_witness :
    (∀ (parse : List Char → Option AiValue) (raw : List Char) (evs : List Event)
        (fs : List FPath),
       runCommit parse ["a.js".data] raw false none ⟨[], [], []⟩ (fun _ => true) = .ok evs →
       (Event.add fs ∈ evs ∨ ∃ m, Event.preview fs m ∈ evs) →
       ∀ f ∈ fs, f ∈ ["a.js".data]) ∧
    (∀ (g : GroupJ) (b : Bool), g.files.getD [] ≠ [] →
       verifiedOf ["a.js".data] g = [] →
       processGroup ["a.js".data] false none ⟨[], [], []⟩ b g =
         [Event.warnNoValid g.title]) ∧
    (∀ (parse : List Char → Option AiValue) (raw e : List Char),
       runCommit parse ["a.js".data] raw false none ⟨[], [], []⟩ (fun _ => true) = .error e →
       parsePhase parse raw = .error e) ∧
    verifiedOf ["a.js".data] ⟨"A".data, [], some ["ghost.js".data, "a.js".data]⟩ =
      ["a.js".data] :=
  invalid_paths_dropped ["a.js".data] false none ⟨[], [], []⟩ (fun _ => true)

/-! ## C8: dry-run performs no mutations -/

/-- **C8.** In a dry-run invocation, whatever the backend returned and
however many groups came out of reconciliation, the run's trace contains
no `git add` and no `git commit` subprocess call: every event is either a
skip warning or a preview (files plus rendered message), so the
repository is not mutated. -/
theorem dryRun_no_mutations (parse : List Char → Option AiValue) (vf : List FPath)
    (raw : List Char) (ji : Option JiraRef) (cfg : Config) (staged : Nat → Bool)
    (evs : List Event)
    (hok : runCommit parse vf raw true ji cfg staged = .ok evs) :
    (∀ fs, Event.add fs ∉ evs) ∧ (∀ m, Event.commit m ∉ evs) ∧
    ∀ ev ∈ evs, (∃ t, ev = Event.warnNoValid t) ∨ ∃ fs m, ev = Event.preview fs m := by
  have hchar : ∀ ev ∈ evs, (∃ t, ev = Event.warnNoValid t) ∨ ∃ fs m, ev = Event.preview fs m := by
    intro ev hev
    rcases runCommit_ok_events hok hev with ⟨gs, _, g, _, b, hpg⟩
    rcases processGroup_events hpg with h | ⟨_, h⟩ | ⟨hd, _⟩
    · exact Or.inl ⟨g.title, h⟩
    · exact Or.inr ⟨verifiedOf vf g, builtMessageOf vf ji cfg g, h⟩
    · cases hd
  refine ⟨?_, ?_, hchar⟩
  · intro fs hmem
    rcases hchar _ hmem with ⟨t, h⟩ | ⟨fs', m, h⟩ <;> cases h
  · intro m hmem
    rcases hchar _ hmem with ⟨t, h⟩ | ⟨fs', m', h⟩ <;> cases h

/-- Witness for `dryRun_no_mutations`: a dry run over two files with a
backend output of one group produces only previews. -/
theorem dryRun_no_mutations_witness :
    (∀ fs, Event.add fs ∉
      [Event.preview ["a.js".data]
        (buildCommitMessage ⟨"A".data, [], some ["a.js".data]⟩ none ⟨[], [], []⟩),
       Event.preview ["b.js".data]
        (buildCommitMessage (catchAllGroup ["b.js".data]) none ⟨[], [], []⟩)]) ∧
    (∀ m, Event.commit m ∉
      [Event.preview ["a.js".data]
        (buildCommitMessage ⟨"A".data, [], some ["a.js".data]⟩ none ⟨[], [], []⟩),
       Event.preview ["b.js".data]
        (buildCommitMessage (catchAllGroup ["b.js".data]) none ⟨[], [], []⟩)]) ∧
    ∀ ev ∈
      [Event.preview ["a.js".data]
        (buildCommitMessage ⟨"A".data, [], some ["a.js".data]⟩ none ⟨[], [], []⟩),
       Event.preview ["b.js".data]
        (buildCommitMessage (catchAllGroup ["b.js".data]) none ⟨[], [], []⟩)],
      (∃ t, ev = Event.warnNoValid t) ∨ ∃ fs m, ev = Event.preview fs m :=
  dryRun_no_mutations
    (fun _ => some (AiValue.arr [⟨"A".data, [], some ["a.js".data]⟩]))
    ["a.js".data, "b.js".data] "[]".data none ⟨[], [], []⟩ (fun _ => true) _ rfl

/-! ## C9: the commit message is flattened only at the commit call -/

/-- **C9.** For every group that reaches the commit step, the message
passed to `git commit -m` is exactly the Builder's message with every
newline run replaced by a single space and then trimmed (so it contains
no newline at all), while a dry-run preview of the same group shows the
Builder's message unflattened. -/
theorem commit_message_flattened (vf : List FPath) (ji : Option JiraRef) (cfg : Config)
    (b : Bool) (g : GroupJ) :
    (∀ (dryRun : Bool) (m : List Char),
       Event.commit m ∈ processGroup vf dryRun ji cfg b g →
       m = safeMessageOf (builtMessageOf vf ji cfg g) ∧ '\n' ∉ m ∧ dryRun = false) ∧
    (∀ fs m, Event.preview fs m ∈ processGroup vf true ji cfg b g →
       m = builtMessageOf vf ji cfg g) := by
  constructor
  · intro dryRun m h
    rcases processGroup_commit_message h with ⟨hd, rfl⟩
    exact ⟨rfl, not_nl_mem_safeMessageOf _, hd⟩
  · intro fs m h
    exact (processGroup_preview_files h).2

/-- Witness for `commit_message_flattened` at a concrete group whose
Builder message spans several lines. -/
theorem commit_message_flattened_witness :
    "changes".data =
        safeMessageOf (builtMessageOf ["a.js".data] none ⟨[], [], []⟩
          ⟨[], [], some ["a.js".data]⟩) ∧
      '\n' ∉ ("changes".data : List Char) ∧ (false : Bool) = false :=
  (commit_message_flattened ["a.js".data] none ⟨[], [], []⟩ true
    ⟨[], [], some ["a.js".data]⟩).1 false "changes".data (by decide)

/-! ## C7: message format with a ticket reference -/

theorem headNonWs_append_left {x y : List Char} (h : headNonWs x = true) :
    headNonWs (x ++ y) = true := by
  cases x with
  | nil => exact absurd h (by decide)
  | cons c t => simpa [headNonWs] using h

theorem lastNonWs_append_right {x y : List Char} (h : lastNonWs y = true) :
    lastNonWs (x ++ y) = true := by
  rw [lastNonWs_append]
  · exact h
  · intro hy
    rw [hy] at h
    exact absurd h (by decide)

/-- **C7.** With a ticket reference present, the Builder's message is
`"<PREFIX>-<NUMBER>: <title>"` followed by the summary as a
blank-line-separated body and, when a ticket base URL is configured, by
the fully qualified ticket URL as the trailing part, where `PREFIX` is the
configured commit-prefix override if set and the ticket's own prefix
otherwise.  The side conditions only rule out degenerate whitespace at
the very edges of the message (which JavaScript `trim` would eat).  For
the branch `feature/SCRUM-123-login` the extracted reference is
`{prefix: "SCRUM", number: "123"}` and the message begins
`"SCRUM-123: "`. -/
theorem buildCommitMessage_jira_format (g : GroupJ) (j : JiraRef) (cfg : Config)
    (hp : headNonWs (orNonEmpty cfg.commitPfx j.pfx) = true)
    (hsum : lastNonWs g.summary = true)
    (hnum : lastNonWs j.num = true) :
    buildCommitMessage g (some j) cfg =
      orNonEmpty cfg.commitPfx j.pfx ++ "-".data ++ j.num ++ ": ".data ++ titleOf g ++
        "\n\n".data ++ g.summary ++
        (if cfg.jiraBaseUrl = [] then []
         else "\n\n".data ++ cfg.jiraBaseUrl ++ "/browse/".data ++
           (orNonEmpty cfg.commitPfx j.pfx ++ "-".data ++ j.num)) ∧
    extractJiraFromBranch "feature/SCRUM-123-login".data =
      some ⟨"SCRUM".data, "123".data⟩ ∧
    jsStartsWith "SCRUM-123: ".data
      (buildCommitMessage ⟨"Add login".data, "Body".data, none⟩
        (extractJiraFromBranch "feature/SCRUM-123-login".data) ⟨[], [], []⟩) = true := by
  refine ⟨?_, by decide, by decide⟩
  show jsTrim _ = _
  by_cases hurl : cfg.jiraBaseUrl = []
  · rw [if_pos hurl, if_pos hurl, List.append_nil]
    apply jsTrim_eq_self
    · repeat
        first
        | exact hp
        | apply headNonWs_append_left
    · exact lastNonWs_append_right hsum
  · rw [if_neg hurl, if_neg hurl]
    rw [jsTrim_eq_self]
    · simp [List.append_assoc]
    · repeat
        first
        | exact hp
        | apply headNonWs_append_left
    · repeat
        first
        | exact hnum
        | apply lastNonWs_append_right

/-- Witness for `buildCommitMessage_jira_format` at the scenario group,
reference and an empty configuration. -/
theorem buildCommitMessage_jira_format_witness :
    buildCommitMessage ⟨"Add login".data, "Body".data, none⟩
        (some ⟨"SCRUM".data, "123".data⟩) ⟨[], [], []⟩ =
      orNonEmpty [] "SCRUM".data ++ "-".data ++ "123".data ++ ": ".data ++
        titleOf ⟨"Add login".data, "Body".data, none⟩ ++ "\n\n".data ++ "Body".data ++
        (if ([] : List Char) = [] then []
         else "\n\n".data ++ [] ++ "/browse/".data ++
           (orNonEmpty [] "SCRUM".data ++ "-".data ++ "123".data)) ∧
    extractJiraFromBranch "feature/SCRUM-123-login".data =
      some ⟨"SCRUM".data, "123".data⟩ ∧
    jsStartsWith "SCRUM-123: ".data
      (buildCommitMessage ⟨"Add login".data, "Body".data, none⟩
        (extractJiraFromBranch "feature/SCRUM-123-login".data) ⟨[], [], []⟩) = true :=
  buildCommitMessage_jira_format ⟨"Add login".data, "Body".data, none⟩
    ⟨"SCRUM".data, "123".data⟩ ⟨[], [], []⟩ (by decide) (by decide) (by decide)

/-! ## C10: case-insensitive ticket extraction -/

theorem char_isLower_iff (x : Char) : x.isLower = true ↔ 97 ≤ x.toNat ∧ x.toNat ≤ 122 := by
  unfold Char.isLower
  rw [Bool.and_eq_true, decide_eq_true_eq, decide_eq_true_eq]
  exact Iff.rfl

theorem char_toNat_ofNat {n : Nat} (h : n < 55296) : (Char.ofNat n).toNat = n := by
  rw [Char.ofNat, dif_pos (Or.inl h)]
  rfl

theorem toUpper_eq (c : Char) : Char.toUpper c =
    if c.toNat ≥ 97 ∧ c.toNat ≤ 122 then Char.ofNat (c.toNat - 32) else c := rfl

/-- `toUpperCase` never produces a lowercase ASCII letter. -/
theorem toUpper_isLower_eq_false (c : Char) : (Char.toUpper c).isLower = false := by
  rw [toUpper_eq]
  split
  · rename_i h
    apply Bool.eq_false_iff.mpr
    intro hlow
    have hb := (char_isLower_iff _).mp hlow
    rw [char_toNat_ofNat (by omega)] at hb
    omega
  · rename_i h
    apply Bool.eq_false_iff.mpr
    intro hlow
    have hb := (char_isLower_iff _).mp hlow
    rw [not_and_or] at h
    omega

/-- The branch-name shape `<type>/<KEY>-<digits>` at the start of the
name, matched case-insensitively, spelled out as the spec describes it:
some branch type followed by a slash (up to letter case), a non-empty
run of ASCII letters, a dash, and a non-empty run of digits, then
anything. -/
def ticketShape (branch : List Char) : Prop :=
  ∃ t ∈ branchTypes, ∃ tpre key num tail,
    branch = tpre ++ (key ++ '-' :: (num ++ tail)) ∧
    tpre.map Char.toLower = t ++ ['/'] ∧
    key ≠ [] ∧ (∀ c ∈ key, c.isAlpha = true) ∧
    num ≠ [] ∧ (∀ c ∈ num, c.isDigit = true)

theorem ciPrefix_take {lit branch : List Char} (hl : lit.map Char.toLower = lit)
    (h : ciPrefixOf lit branch = true) :
    (branch.take lit.length).map Char.toLower = lit := by
  unfold ciPrefixOf at h
  rcases List.isPrefixOf_iff_prefix.mp h with ⟨tail, htail⟩
  have htake : (branch.map Char.toLower).take (lit.map Char.toLower).length =
      lit.map Char.toLower := by
    rw [← htail]
    exact List.take_left _ _
  rw [← List.map_take] at htake
  rw [List.length_map, hl] at htake
  exact htake

theorem stripTypeSlash_shape {branch rest : List Char}
    (h : stripTypeSlash branch = some rest) :
    ∃ t ∈ branchTypes, ∃ lit, lit = t ++ ['/'] ∧ lit.map Char.toLower = lit ∧
      ciPrefixOf lit branch = true ∧ rest = branch.drop lit.length := by
  unfold stripTypeSlash at h
  split at h
  · injection h with h
    exact ⟨"feature".data, by decide, "feature/".data, by decide, by decide,
      by assumption, h.symm⟩
  · split at h
    · injection h with h
      exact ⟨"hotfix".data, by decide, "hotfix/".data, by decide, by decide,
        by assumption, h.symm⟩
    · split at h
      · injection h with h
        exact ⟨"bugfix".data, by decide, "bugfix/".data, by decide, by decide,
          by assumption, h.symm⟩
      · split at h
        · injection h with h
          exact ⟨"task".data, by decide, "task/".data, by decide, by decide,
            by assumption, h.symm⟩
        · cases h

theorem keyNumOf_shape {rest : List Char} {ref : JiraRef} (h : keyNumOf rest = some ref) :
    ∃ key num tail, rest = key ++ '-' :: (num ++ tail) ∧
      key ≠ [] ∧ (∀ c ∈ key, c.isAlpha = true) ∧
      num ≠ [] ∧ (∀ c ∈ num, c.isDigit = true) ∧
      ref = ⟨key.map Char.toUpper, num⟩ := by
  unfold keyNumOf at h
  split at h
  · cases h
  · rename_i hkey
    split at h
    · rename_i rest3 heq
      split at h
      · cases h
      · rename_i hnum
        injection h with h
        have h1 : rest = rest.takeWhile Char.isAlpha ++ ('-' :: rest3) := by
          conv_lhs => rw [← List.takeWhile_append_dropWhile Char.isAlpha rest]
          rw [heq]
        have h2 : rest3 = rest3.takeWhile Char.isDigit ++ rest3.dropWhile Char.isDigit :=
          (List.takeWhile_append_dropWhile Char.isDigit rest3).symm
        rw [h2] at h1
        exact ⟨rest.takeWhile Char.isAlpha, rest3.takeWhile Char.isDigit,
          rest3.dropWhile Char.isDigit, h1, hkey,
          fun c hc => List.mem_takeWhile_imp hc, hnum,
          fun c hc => List.mem_takeWhile_imp hc, h.symm⟩
    · cases h

/-- **C10.** Branch-name ticket extraction is case-insensitive and
normalizing: (1) it accepts `Feature/scrum-123-x`, returning the uppercased
key `SCRUM`; (2) every extracted prefix contains no lowercase letter;
(3) extraction succeeds only on branches matching the
`<type>/<KEY>-<digits>` shape at the start of the name (so any
non-matching branch yields `null`); (4) with a `null` ticket reference the
Builder uses the bare title/summary format (title, blank line, summary,
and the optional project-key annotation — no ticket prefix). -/
theorem extractJira_case_insensitive (branch : List Char) :
    extractJiraFromBranch "Feature/scrum-123-x".data =
      some ⟨"SCRUM".data, "123".data⟩ ∧
    (∀ ref : JiraRef, extractJiraFromBranch branch = some ref →
       ∀ c ∈ ref.pfx, c.isLower = false) ∧
    (extractJiraFromBranch branch ≠ none → ticketShape branch) ∧
    (∀ (g : GroupJ) (cfg : Config), extractJiraFromBranch branch = none →
       buildCommitMessage g (extractJiraFromBranch branch) cfg =
         (if cfg.projectKey = [] then jsTrim (titleOf g ++ "\n\n".data ++ g.summary)
          else jsTrim (titleOf g ++ "\n\n".data ++ g.summary ++ "\n\n".data ++
            "(Project: ".data ++ cfg.projectKey ++ ")".data))) := by
  refine ⟨by decide, ?_, ?_, ?_⟩
  · intro ref href c hc
    rcases hstrip : stripTypeSlash branch with _ | rest
    · have hx : extractJiraFromBranch branch = none := by
        unfold extractJiraFromBranch
        rw [hstrip]
      rw [hx] at href
      cases href
    · have hx : extractJiraFromBranch branch = keyNumOf rest := by
        unfold extractJiraFromBranch
        rw [hstrip]
      rw [hx] at href
      rcases keyNumOf_shape href with ⟨key, num, tail, _, _, _, _, _, rfl⟩
      rcases List.mem_map.mp hc with ⟨d, _, rfl⟩
      exact toUpper_isLower_eq_false d
  · intro h
    rcases hstrip : stripTypeSlash branch with _ | rest
    · have hx : extractJiraFromBranch branch = none := by
        unfold extractJiraFromBranch
        rw [hstrip]
      exact absurd hx h
    · have hx : extractJiraFromBranch branch = keyNumOf rest := by
        unfold extractJiraFromBranch
        rw [hstrip]
      rcases hkn : keyNumOf rest with _ | ref
      · rw [hkn] at hx
        exact absurd hx h
      · rcases keyNumOf_shape hkn with ⟨key, num, tail, hdec, hk1, hk2, hn1, hn2, _⟩
        rcases stripTypeSlash_shape hstrip with ⟨t, ht, lit, hlit, hlow, hci, hrest⟩
        refine ⟨t, ht, branch.take lit.length, key, num, tail, ?_, ?_, hk1, hk2, hn1, hn2⟩
        · conv_lhs => rw [← List.take_append_drop lit.length branch]
          rw [← hrest, hdec]
        · rw [ciPrefix_take hlow hci, hlit]
  · intro g cfg h
    rw [h]
    by_cases hk : cfg.projectKey = [] <;> simp [buildCommitMessage, hk]

/-- Witness for `extractJira_case_insensitive` at concrete branches: the
mixed-case branch extracts the uppercased key, the extraction result
indeed has no lowercase prefix character, a successfully matched branch
has the ticket shape, and a non-matching branch (`main`) produces the
bare message format. -/
theorem extractJira_case_insensitive_witness :
    (∀ c ∈ ("SCRUM".data : List Char), c.isLower = false) ∧
    ticketShape "Feature/scrum-123-x".data ∧
    buildCommitMessage ⟨"T".data, "S".data, none⟩
        (extractJiraFromBranch "main".data) ⟨[], [], []⟩ =
      jsTrim ("T".data ++ "\n\n".data ++ "S".data) := by
  refine ⟨?_, ?_, ?_⟩
  · intro c hc
    exact (extractJira_case_insensitive "Feature/scrum-123-x".data).2.1
      ⟨"SCRUM".data, "123".data⟩ (by decide) c hc
  · exact (extractJira_case_insensitive "Feature/scrum-123-x".data).2.2.1 (by decide)
  · have h := (extractJira_case_insensitive "main".data).2.2.2
      ⟨"T".data, "S".data, none⟩ ⟨[], [], []⟩ (by decide)
    rw [h]
    decide
